import Mathlib

/-!
# Verification of the minus80 archival backup engine

A shallow embedding of `minus80.py` (content-addressable archival backup to a
tiered object store) together with proofs about its core operations:

* `s3_path_to_local` — the remote-key → sharded-local-path mapping;
* `do_thaw` — the cold-tier restore orchestrator;
* `do_download` — the remote-namespace mirror;
* `do_rebuild` — the metadata-replay tree reconstruction;
* `do_archive` — the per-file idempotent archival engine.

Strings from the source are modelled as `String` or as `List Char` (for the
functions that do character-level splitting); POSIX float mtimes are modelled
as `Int` (the code only compares them for equality and sorts by them); the
SHA-1 hasher is abstracted as an arbitrary function `hash : String → String`
(each theorem holds for every choice of hash, and witnesses instantiate it
concretely); the S3 bucket is a partial map from structured keys to string
bodies, and each upload call is recorded with its key, body, `replace` flag,
and whether bytes were actually transferred.
-/

namespace Minus80

/-! ## Sharded local paths (`s3_path_to_local`)

The source splits the remote key on "/", strips leading slashes, and — when
the first segment is "data" or "index", there are at least two segments, and
the second segment is longer than 4 characters — splits the second segment
(the hash) after its 2nd and 4th characters, then rejoins the components
under the local root with `os.path.join` (modelled by `ospJoin`, including
its collapsing of empty components), yielding the local path as a character
string. -/

/-- Split a character list on '/' (Python `str.split("/")`): the result is the
list of (possibly empty) slash-free segments, and is always nonempty. -/
def splitSlash : List Char → List (List Char)
  | [] => [[]]
  | c :: rest =>
    let r := splitSlash rest
    if c = '/' then [] :: r else (c :: r.headI) :: r.tail

/-- Rejoin segments with '/' (inverse of `splitSlash`). -/
def joinSlash : List (List Char) → List Char
  | [] => []
  | [s] => s
  | s :: ss => s ++ '/' :: joinSlash ss

/-- The segment-level shard step of `s3_path_to_local`: when the first
segment is "data" or "index" and the second segment (the hash) is longer
than 4 characters, split the hash after its 2nd and 4th characters. -/
def shardSegs (p : List (List Char)) : List (List Char) :=
  match p with
  | seg0 :: h :: rest =>
    if (seg0 = "data".toList ∨ seg0 = "index".toList) ∧ 4 < h.length then
      seg0 :: h.take 2 :: (h.drop 2).take 2 :: h.drop 4 :: rest
    else p
  | _ => p

/-- One step of `os.path.join` (posixpath semantics): a component starting
with the separator resets the path; otherwise a separator is inserted
unless the path so far is empty or already ends with one. -/
def ospJoinStep (path : List Char) (b : List Char) : List Char :=
  if b.head? = some '/' then b
  else if path = [] ∨ path.getLast? = some '/' then path ++ b
  else path ++ '/' :: b

/-- The join `os.path.join(root, *parts)`.  Note that it collapses empty
components — `join("r", "", "a") = "r/a"` — so distinct component lists can
join to the same path. -/
def ospJoin (root : List Char) (parts : List (List Char)) : List Char :=
  parts.foldl ospJoinStep root

/-- Function `s3_path_to_local` from the source: strip leading slashes,
split on "/", shard the hash segment of `data/` and `index/` keys into a
2+2+rest directory split, and rejoin the components under `localroot` with
`os.path.join`. -/
def s3_path_to_local (localroot : List Char) (path : List Char) :
    List Char :=
  ospJoin localroot (shardSegs (splitSlash (path.dropWhile (fun c => c = '/'))))

/-- Inverse of `shardSegs` on well-formed segment lists: reassemble a
2+2+rest split under a "data" or "index" head. -/
def unshardSegs (q : List (List Char)) : List (List Char) :=
  match q with
  | seg0 :: a :: b :: c :: rest =>
    if (seg0 = "data".toList ∨ seg0 = "index".toList) ∧
        a.length = 2 ∧ b.length = 2 then
      seg0 :: (a ++ b ++ c) :: rest
    else q
  | _ => q

/-- A key's segments are well formed when a "data"/"index" head is followed
by a hash segment longer than 4 characters (true of every key the system
writes: the hashes are 40-character hex digests). -/
def wfSegs (p : List (List Char)) : Bool :=
  match p with
  | seg0 :: h :: _ =>
    if seg0 = "data".toList ∨ seg0 = "index".toList then decide (4 < h.length)
    else true
  | _ => true

/-- A well-formed remote key: no empty segments — hence no leading,
trailing, or doubled slashes (`os.path.join` collapses empty components,
so keys such as `stream//a` and `stream/a` coincide locally) — and
well-formed segments.  Every key the system writes is well formed. -/
def wfKey (k : List Char) : Bool :=
  (splitSlash k).all (fun s => decide (s ≠ [])) && wfSegs (splitSlash k)

/-! ## Thaw orchestrator (`is_thawed`, `is_thawing`, `do_thaw`)

The boto3 `restore` attribute is `None` or a header string such as
`ongoing-request="true"` or `ongoing-request="false", expiry-date="..."`;
the source tests it for truthiness and for substring containment, which we
model with `List.isInfixOf` on the character lists (a `Some ""` restore
header is falsy in Python and likewise fails every containment test here).
`restore_object`'s `Days`/`Tier` parameters do not affect which keys are
requested, so a restore request is recorded as its key. -/

structure ThawObj where
  key : String
  storage_class : String
  restore : Option String
deriving DecidableEq

/-- Predicate `is_thawed` from the source: restore header present and containing both
`ongoing-request="false"` and `expiry-date=`. -/
def is_thawed (o : ThawObj) : Bool :=
  match o.restore with
  | none => false
  | some r =>
    decide ("ongoing-request=\"false\"".toList <:+: r.toList) &&
      decide ("expiry-date=".toList <:+: r.toList)

/-- Predicate `is_thawing` from the source: restore header present and containing
`ongoing-request="true"`. -/
def is_thawing (o : ThawObj) : Bool :=
  match o.restore with
  | none => false
  | some r => decide ("ongoing-request=\"true\"".toList <:+: r.toList)

/-- One iteration of the `do_thaw` loop: skip objects not in a cold storage
class; skip thawed objects; count the rest as thawing; issue a restore
request only when no restore is already in progress.  The state is the
`thawing_objs` counter and the list of keys restore requests were issued
for. -/
def thawStep (st : Nat × List String) (o : ThawObj) : Nat × List String :=
  if o.storage_class ≠ "GLACIER" ∧ o.storage_class ≠ "DEEP_ARCHIVE" then st
  else if is_thawed o then st
  else if is_thawing o then (st.1 + 1, st.2)
  else (st.1 + 1, st.2 ++ [o.key])

/-- Operation `do_thaw` from the source, over the `data/` listing: returns the final
`thawing_objs` counter and the keys for which a restore request was issued,
in order. -/
def do_thaw (listing : List ThawObj) : Nat × List String :=
  listing.foldl thawStep (0, [])

/-- The final log-message choice of `do_thaw`: `True` exactly when the
"All objects thawed; ready to start download" branch is taken (the counter
is zero), `False` when the "Thawing N objects" estimate is reported. -/
def thawNoActionNeeded (listing : List ThawObj) : Bool :=
  (do_thaw listing).1 == 0

/-- The storage-class test of the thaw loop, as a predicate. -/
def isFrozenClass (o : ThawObj) : Bool :=
  decide (o.storage_class = "GLACIER" ∨ o.storage_class = "DEEP_ARCHIVE")

/-- Demo listing for the thaw witnesses: one object mid-restore, one frozen
object with no restore yet, one hot-tier object. -/
def thawDemoListing : List ThawObj :=
  [⟨"data/aa", "GLACIER", some "ongoing-request=\"true\""⟩,
   ⟨"data/bb", "DEEP_ARCHIVE", none⟩,
   ⟨"data/cc", "STANDARD", none⟩]

/-! ## Download synchronizer (`do_download`)

The source iterates the S3 listing restricted to the prefixes `index/` and
`data/` (in that order), computes the sharded local path for each key, skips
the key when a local file of the remote size already exists there, and
otherwise transfers the object (creating parent directories).  The local
tree is modelled as a map from local paths to file sizes, and the run
records the keys actually transferred, in order.  Per-object transport
failures (the try/except around `download_file`) are not modelled: every
attempted transfer succeeds. -/

/-- A remote object as returned by list-by-prefix: key and size. -/
structure S3Obj where
  key : List Char
  size : Nat
deriving DecidableEq

/-- The local downloaded tree: sharded local path → file size. -/
def DlFs : Type := List Char → Option Nat

def updateFs (fs : DlFs) (p : List Char) (n : Nat) : DlFs :=
  fun q => if q = p then some n else fs q

/-- The skip test of the download loop:
`osp.lexists(localname) and osp.getsize(localname) == key.size`. -/
def localMatch (fs : DlFs) (p : List Char) (n : Nat) : Bool :=
  match fs p with
  | some sz => sz == n
  | none => false

/-- One iteration of the download loop: skip when a local file of the right
size exists, otherwise transfer the object to the sharded path. -/
def downloadStep (destdir : List Char) (st : DlFs × List (List Char))
    (o : S3Obj) : DlFs × List (List Char) :=
  let localname := s3_path_to_local destdir o.key
  if localMatch st.1 localname o.size then st
  else (updateFs st.1 localname o.size, st.2 ++ [o.key])

/-- The objects `do_download` iterates: the listing restricted to `index/`
then to `data/`, mirroring `for prefix in ["index/", "data/"]`. -/
def downloadList (listing : List S3Obj) : List S3Obj :=
  listing.filter (fun o => "index/".toList.isPrefixOf o.key) ++
    listing.filter (fun o => "data/".toList.isPrefixOf o.key)

/-- Operation `do_download` from the source: returns the final local tree and the
keys transferred, in order. -/
def do_download (destdir : List Char) (listing : List S3Obj)
    (fs0 : DlFs) : DlFs × List (List Char) :=
  (downloadList listing).foldl (downloadStep destdir) (fs0, [])

/-- Demo listing and pre-run local tree for the download witness: the
`data/` object already exists locally at the right size, the `index/`
object does not, and a `stream/` object is present in the bucket. -/
def dlDemoListing : List S3Obj :=
  [⟨"index/abcdefg/i.json".toList, 3⟩, ⟨"data/abcdefg".toList, 7⟩,
   ⟨"stream/t_i.json".toList, 5⟩]

def dlDemoFs : DlFs :=
  fun p => if p = s3_path_to_local [] "data/abcdefg".toList then some 7
    else none

/-! ## Rebuild reconciler (`do_rebuild`)

The source walks the downloaded `index/` tree reading every JSON metadata
record (uncaught: a malformed/unreadable file raises out of `do_rebuild`),
sorts the records newest-first by `mtime` (Python's stable sort with
`reverse=True`), and for each record copies the content object into place
unless a destination file with the same size as the source object already
exists.  Only `shutil.copy2`/`os.utime` are inside the per-record
try/except; `osp.getsize(srcname)` in the skip test is outside it and, when
the destination exists but the source object is missing, raises and aborts
the batch.  The walk result is modelled as a list of `Option IndexRec`
(`none` = a file `json.load` fails on); the downloaded tree as a map from
sharded paths to contents; the destination tree as a map from the record's
slash-stripped `path` to content and mtime. -/

/-- A parsed metadata record (`{path, size, mtime, data}`); `size` is
present in the JSON but unused by the rebuild loop. -/
structure IndexRec where
  path : List Char
  size : Nat
  mtime : Int
  data : List Char
deriving DecidableEq

/-- A destination file: content, and the mtime set by `os.utime`. -/
structure DestFile where
  content : List Char
  mtime : Int
deriving DecidableEq

/-- The destination tree under `destdir`. -/
def DestFs : Type := List Char → Option DestFile

/-- The downloaded tree under `srcdir`: sharded local path → content. -/
def SrcFs : Type := List Char → Option (List Char)

def updateDest (d : DestFs) (p : List Char) (f : DestFile) : DestFs :=
  fun q => if q = p then some f else d q

/-- The sharded local path of a record's content object:
`s3_path_to_local(srcdir, "data/<data>")`. -/
def srcName (srcdir : List Char) (r : IndexRec) : List Char :=
  s3_path_to_local srcdir ("data/".toList ++ r.data)

/-- The destination key of a record: its `path` with leading separators
stripped (`index['path'].lstrip(os.sep)`), joined under `destdir`. -/
def destName (r : IndexRec) : List Char :=
  r.path.dropWhile (fun c => c = '/')

/-- Rebuild log events (informational and error log lines). -/
inductive REvent where
  | skipExists (r : IndexRec)
  | copy (r : IndexRec)
  | errCopy (r : IndexRec)
deriving DecidableEq

/-- Errors that escape `do_rebuild` (no handler catches them). -/
inductive RebuildError where
  | malformedIndex
  | srcStatFailed (r : IndexRec)
deriving DecidableEq

/-- One iteration of the rebuild loop.  When the destination exists, the
skip test stats the source object outside the try/except (missing source →
uncaught error); otherwise the copy is attempted inside it (missing source
→ logged, loop continues). -/
def rebuildStep (srcdir : List Char) (srcFs : SrcFs)
    (st : DestFs × List REvent) (r : IndexRec) :
    Except RebuildError (DestFs × List REvent) :=
  match st.1 (destName r) with
  | some df =>
    match srcFs (srcName srcdir r) with
    | none => .error (.srcStatFailed r)
    | some c =>
      if c.length = df.content.length then
        .ok (st.1, st.2 ++ [.skipExists r])
      else
        .ok (updateDest st.1 (destName r) ⟨c, r.mtime⟩, st.2 ++ [.copy r])
  | none =>
    match srcFs (srcName srcdir r) with
    | none => .ok (st.1, st.2 ++ [.copy r, .errCopy r])
    | some c =>
      .ok (updateDest st.1 (destName r) ⟨c, r.mtime⟩, st.2 ++ [.copy r])

/-- Stable insertion for descending-mtime sort: `r` goes after every
element with mtime ≥ its own, so ties keep their original order. -/
def insertDesc (r : IndexRec) : List IndexRec → List IndexRec
  | [] => [r]
  | x :: xs => if r.mtime ≤ x.mtime then x :: insertDesc r xs else r :: x :: xs

/-- Sorting `indexes.sort(key=lambda x: x['mtime'], reverse=True)`: stable,
newest-first. -/
def sortByMtime (l : List IndexRec) : List IndexRec :=
  l.foldl (fun acc r => insertDesc r acc) []

/-- Operation `do_rebuild` from the source: read every index record (a malformed file
aborts the walk), sort newest-first, and fold the copy loop from the
existing destination tree. -/
def do_rebuild (srcdir : List Char) (srcFs : SrcFs)
    (loaded : List (Option IndexRec)) (dest0 : DestFs) :
    Except RebuildError (DestFs × List REvent) :=
  match loaded.mapM id with
  | none => .error .malformedIndex
  | some indexes =>
    (sortByMtime indexes).foldlM (rebuildStep srcdir srcFs) (dest0, [])

/-- C1 failing input: two records for the same destination path `/f`, the
older (mtime 1) with 1-byte content `y`, the newer (mtime 2) with 2-byte
content `xx`. -/
def c1OldRec : IndexRec := ⟨"/f".toList, 1, 1, "h1".toList⟩

def c1NewRec : IndexRec := ⟨"/f".toList, 2, 2, "h2".toList⟩

def c1SrcFs : SrcFs := fun p =>
  if p = srcName [] c1OldRec then some "y".toList
  else if p = srcName [] c1NewRec then some "xx".toList
  else none

/-! ## Archive engine (`do_archive`)

The remote key strings `data/<h>`, `index/<h>/<i>.json`,
`stream/<ts>Z_<i>.json`, `README_<v>.txt` and `LAST_UPDATE.txt` are
pairwise distinct and componentwise recoverable for slash-free hex digests,
so the bucket is modelled with a structured key type.  Every call to
`upload_file`/`upload_string` is recorded with its key, body, `replace`
flag and whether bytes were transferred; a "remote write" is a record with
`transferred = true`.  A source file is observed at three points — the
initial stat (`v0`), the hashing pass together with `get_file_info`'s
re-stat (`v1`), and the post-upload conflict re-stat (`v2`) — so a path's
environment carries all three views; a file untouched during the run has
`v0 = v1 = v2`.  The run's UTC timestamp `now` serves both the
`LAST_UPDATE` body and the stream keys. -/

/-- A snapshot of a source file: mtime and content (its size is the
content's length). -/
structure FileView where
  mtime : Int
  content : String
deriving DecidableEq

/-- What the filesystem presents at a canonical path during the run. -/
inductive PathKind where
  | missing
  | directory
  | file (v0 v1 v2 : FileView)
deriving DecidableEq

/-- Structured remote keys (see section comment). -/
inductive Key where
  | data (datahash : String)
  | index (datahash infohash : String)
  | stream (timestamp infohash : String)
  | readme (version : String)
  | lastUpdate
deriving DecidableEq

/-- A recorded `upload_file`/`upload_string` call. -/
structure UploadRec where
  key : Key
  body : String
  replace : Bool
  transferred : Bool
deriving DecidableEq

/-- A row of the `files` cache table. -/
structure DbRec where
  abspath : String
  mtime : Int
  size : Nat
  infohash : String
  datahash : String
deriving DecidableEq

/-- Archive log events (warning/info level; debug lines are not modelled). -/
inductive AEvent where
  | skipDir (p : String)
  | doesNotExist (p : String)
  | errorEvt (p : String)
  | skipKnown (p : String)
  | uploadDone (k : Key) (p : String)
  | uploadExists (k : Key) (p : String)
  | concurrentModification (p : String)
  | indexDone (k : Key) (p : String)
  | indexExists (k : Key) (p : String)
  | streamDone (k : Key) (p : String)
deriving DecidableEq

/-- The bucket: key → stored body. -/
def Remote : Type := Key → Option String

/-- Archive run state: the bucket, the recorded upload calls, the recorded
deletes, the cache table, and the log. -/
structure ArchSt where
  remote : Remote
  uploads : List UploadRec
  deletes : List Key
  db : List DbRec
  log : List AEvent

def emptyArchSt : ArchSt := ⟨fun _ => none, [], [], [], []⟩

def putRemote (r : Remote) (k : Key) (v : String) : Remote :=
  fun q => if q = k then some v else r q

def eraseRemote (r : Remote) (k : Key) : Remote :=
  fun q => if q = k then none else r q

/-- The shared body of `upload_string`/`upload_file`: unless `replace`,
HEAD-check the key and skip when it exists; otherwise put.  Returns whether
bytes were transferred, recording the call either way. -/
def uploadKey (st : ArchSt) (k : Key) (body : String) (replace : Bool) :
    ArchSt × Bool :=
  if replace = false ∧ (st.remote k).isSome then
    ({ st with uploads := st.uploads ++ [⟨k, body, replace, false⟩] }, false)
  else
    ({ st with remote := putRemote st.remote k body,
               uploads := st.uploads ++ [⟨k, body, replace, true⟩] }, true)

/-- Function `upload_string` from the source. -/
def upload_string (st : ArchSt) (k : Key) (s : String) (replace : Bool) :
    ArchSt × Bool :=
  uploadKey st k s replace

/-- Function `upload_file` from the source (the body is the file content read at
upload time). -/
def upload_file (st : ArchSt) (k : Key) (content : String) (replace : Bool) :
    ArchSt × Bool :=
  uploadKey st k content replace

/-- Minimal JSON string escaping (quote and backslash; `json.dumps` also
escapes control and non-ASCII characters, which no claim exercises). -/
def jsonEscape (s : String) : String :=
  ⟨s.toList.foldr (fun c acc =>
    if c = '"' ∨ c = '\\' then '\\' :: c :: acc else c :: acc) []⟩

/-- Function `get_file_info`: the canonical sorted-keys, no-whitespace JSON
serialization of `{path, size, mtime, data}`. -/
def get_file_info (absfile : String) (size : Nat) (mtime : Int)
    (datahash : String) : String :=
  "\x7b\"data\":\"" ++ datahash ++ "\",\"mtime\":" ++ toString mtime ++
    ",\"path\":\"" ++ jsonEscape absfile ++ "\",\"size\":" ++
    toString size ++ "\x7d"

/-- The cache lookup
`SELECT ... FROM files WHERE abspath = ? AND mtime = ? AND size = ?`. -/
def lookupDb (db : List DbRec) (abspath : String) (mtime : Int)
    (size : Nat) : Option DbRec :=
  db.find? (fun fr =>
    fr.abspath == abspath && fr.mtime == mtime && fr.size == size)

/-- Process one path of the `do_archive` loop (the body of the for-loop,
including its try/except).  A missing path is logged with a warning, after
which — the source has no `continue` there — `osp.getmtime` raises and the
per-file handler logs the error; either way the loop proceeds. -/
def archiveStep (hash : String → String) (now : String)
    (realpath : String → String) (env : String → PathKind)
    (st : ArchSt) (relfile : String) : ArchSt :=
  let absfile := realpath relfile
  match env absfile with
  | .directory => { st with log := st.log ++ [.skipDir absfile] }
  | .missing =>
    { st with log := st.log ++ [.doesNotExist absfile, .errorEvt relfile] }
  | .file v0 v1 v2 =>
    let mtime := v0.mtime
    let fsize := v0.content.length
    match lookupDb st.db absfile mtime fsize with
    | some _ => { st with log := st.log ++ [.skipKnown absfile] }
    | none =>
      let datahash := hash v1.content
      let fileinfo :=
        get_file_info absfile v1.content.length v1.mtime datahash
      let infohash := hash fileinfo
      let indexkey := Key.index datahash infohash
      let datakey := Key.data datahash
      let up1 := upload_file st datakey v1.content false
      let st1 := up1.1
      let did_upload := up1.2
      if did_upload = true ∧
          (mtime ≠ v2.mtime ∨ fsize ≠ v2.content.length) then
        { st1 with
          remote := eraseRemote st1.remote datakey,
          deletes := st1.deletes ++ [datakey],
          log := st1.log ++ [.concurrentModification absfile] }
      else
        let st2 := { st1 with
          log := st1.log ++
            [if did_upload then AEvent.uploadDone datakey absfile
             else AEvent.uploadExists datakey absfile] }
        let up2 := upload_string st2 indexkey fileinfo did_upload
        let st3 := up2.1
        let st4 : ArchSt :=
          if up2.2 then
            let streamkey := Key.stream now infohash
            let up3 := upload_string
              { st3 with log := st3.log ++ [.indexDone indexkey absfile] }
              streamkey fileinfo false
            { up3.1 with
              log := up3.1.log ++ [.streamDone streamkey absfile] }
          else { st3 with log := st3.log ++ [.indexExists indexkey absfile] }
        { st4 with
          db := st4.db ++
            [(⟨absfile, mtime, fsize, infohash, datahash⟩ : DbRec)] }

/-- Operation `do_archive` from the source: the per-invocation maintenance writes
(README for the current version with no overwrite, LAST_UPDATE with
forced overwrite), then the per-file loop.  `selfContent` is the tool's own
source text (`__file__`). -/
def do_archive (hash : String → String) (now : String)
    (selfContent version : String) (realpath : String → String)
    (env : String → PathKind) (inputs : List String) (st0 : ArchSt) :
    ArchSt :=
  let st1 := (upload_file st0 (Key.readme version) selfContent false).1
  let st2 := (upload_string st1 Key.lastUpdate now true).1
  inputs.foldl (archiveStep hash now realpath env) st2

/-- Environment for the C7 witness: `/d` is a directory, everything else
does not exist. -/
def c7Env : String → PathKind :=
  fun p => if p = "/d" then .directory else .missing

/-- Environment for the C2 witness: `/f` is a file whose mtime changes
from 1 to 2 during the upload. -/
def c2Env : String → PathKind :=
  fun p => if p = "/f" then .file ⟨1, "a"⟩ ⟨1, "a"⟩ ⟨2, "a"⟩ else .missing

/-- The content digest computed for a file's hashed view. -/
def dataDigest (hash : String → String) (v1 : FileView) : String :=
  hash v1.content

/-- The serialized MetadataRecord built for a file. -/
def metaInfo (hash : String → String) (absfile : String) (v1 : FileView) :
    String :=
  get_file_info absfile v1.content.length v1.mtime (hash v1.content)

/-- The digest of the serialized MetadataRecord. -/
def infoDigest (hash : String → String) (absfile : String) (v1 : FileView) :
    String :=
  hash (metaInfo hash absfile v1)

/-- The upload calls recorded after `st`, in a later state `st'`. -/
def newUploads (st st' : ArchSt) : List UploadRec :=
  st'.uploads.drop st.uploads.length

/-- Environment for the C9 witness: `/f` is a stable file of content `a`. -/
def c9Env : String → PathKind :=
  fun p => if p = "/f" then .file ⟨1, "a"⟩ ⟨1, "a"⟩ ⟨1, "a"⟩ else .missing

/-- A cache record matching a file's `(abspath, mtime, size)` triple. -/
def dbCovers (db : List DbRec) (abspath : String) (mtime : Int)
    (size : Nat) : Prop :=
  ∃ fr ∈ db, fr.abspath = abspath ∧ fr.mtime = mtime ∧ fr.size = size

/-- Paths that only need stability: directories and missing paths are
unconstrained, files must re-stat unchanged. -/
def stablePath (rp : String → String) (env : String → PathKind)
    (p : String) : Prop :=
  ∀ v0 v1 v2 : FileView, env (rp p) = .file v0 v1 v2 →
    v0.mtime = v2.mtime ∧ v0.content.length = v2.content.length

/-- Environment for the C3 scenario: one stable file `/a`. -/
def c3Env : String → PathKind :=
  fun p => if p = "/a" then .file ⟨5, "x"⟩ ⟨5, "x"⟩ ⟨5, "x"⟩ else .missing

/-! ## Theorems -/

theorem splitSlash_ne_nil (cs : List Char) : splitSlash cs ≠ [] := by
  cases cs with
  | nil => simp [splitSlash]
  | cons c rest =>
    simp only [splitSlash]
    split <;> simp

theorem joinSlash_cons_cons (c : Char) (s : List Char) (ss : List (List Char)) :
    joinSlash ((c :: s) :: ss) = c :: joinSlash (s :: ss) := by
  cases ss with
  | nil => simp [joinSlash]
  | cons t ts => simp [joinSlash]

theorem joinSlash_splitSlash (cs : List Char) :
    joinSlash (splitSlash cs) = cs := by
  induction cs with
  | nil => simp [splitSlash, joinSlash]
  | cons c rest ih =>
    obtain ⟨s, ss, hs⟩ := List.exists_cons_of_ne_nil (splitSlash_ne_nil rest)
    simp only [splitSlash]
    by_cases hc : c = '/'
    · subst hc
      simp only [if_pos rfl]
      rw [hs] at ih ⊢
      simp [joinSlash, ih]
    · simp only [if_neg hc]
      rw [hs] at ih ⊢
      simp only [List.headI, List.tail_cons]
      rw [joinSlash_cons_cons, ih]

theorem splitSlash_injective {cs₁ cs₂ : List Char}
    (h : splitSlash cs₁ = splitSlash cs₂) : cs₁ = cs₂ := by
  have h1 := joinSlash_splitSlash cs₁
  have h2 := joinSlash_splitSlash cs₂
  rw [← h1, ← h2, h]

theorem shardSegs_cons_cons (seg0 h : List Char) (rest : List (List Char)) :
    shardSegs (seg0 :: h :: rest) =
      if (seg0 = "data".toList ∨ seg0 = "index".toList) ∧ 4 < h.length then
        seg0 :: h.take 2 :: (h.drop 2).take 2 :: h.drop 4 :: rest
      else seg0 :: h :: rest := rfl

theorem unshardSegs_cons4 (seg0 a b c : List Char) (rest : List (List Char)) :
    unshardSegs (seg0 :: a :: b :: c :: rest) =
      if (seg0 = "data".toList ∨ seg0 = "index".toList) ∧
          a.length = 2 ∧ b.length = 2 then
        seg0 :: (a ++ b ++ c) :: rest
      else seg0 :: a :: b :: c :: rest := rfl

theorem unshardSegs_shardSegs (p : List (List Char)) (hwf : wfSegs p = true) :
    unshardSegs (shardSegs p) = p := by
  match p with
  | [] => rfl
  | [seg0] => rfl
  | seg0 :: h :: rest =>
    by_cases hd : seg0 = "data".toList ∨ seg0 = "index".toList
    · have hlen : 4 < h.length := by
        have : wfSegs (seg0 :: h :: rest) =
            (if seg0 = "data".toList ∨ seg0 = "index".toList then
              decide (4 < h.length) else true) := rfl
        rw [this, if_pos hd] at hwf
        exact of_decide_eq_true hwf
      have hta : (h.take 2).length = 2 := by
        simp [List.length_take]; omega
      have htb : ((h.drop 2).take 2).length = 2 := by
        simp [List.length_take, List.length_drop]; omega
      rw [shardSegs_cons_cons, if_pos ⟨hd, hlen⟩, unshardSegs_cons4,
        if_pos ⟨hd, hta, htb⟩]
      have hre : h.take 2 ++ (h.drop 2).take 2 ++ h.drop 4 = h := by
        have hdd : (h.drop 2).drop 2 = h.drop 4 := by
          rw [List.drop_drop]
        rw [List.append_assoc, ← hdd, List.take_append_drop,
          List.take_append_drop]
      rw [hre]
    · have hcond : ¬ ((seg0 = "data".toList ∨ seg0 = "index".toList) ∧
          4 < h.length) := fun hc => hd hc.1
      rw [shardSegs_cons_cons, if_neg hcond]
      match rest with
      | [] => rfl
      | [x] => rfl
      | x :: y :: more =>
        have hcond' : ¬ ((seg0 = "data".toList ∨ seg0 = "index".toList) ∧
            h.length = 2 ∧ x.length = 2) := fun hc => hd hc.1
        rw [unshardSegs_cons4, if_neg hcond']

/-- Splitting a slash-free run of characters yields a single segment. -/
theorem splitSlash_no_slash {a : List Char} (ha : '/' ∉ a) :
    splitSlash a = [a] := by
  induction a with
  | nil => simp [splitSlash]
  | cons c rest ih =>
    have hc : c ≠ '/' := by intro h; exact ha (by simp [h])
    have hr : '/' ∉ rest := fun h => ha (by simp [h])
    simp [splitSlash, hc, ih hr]

/-- Splitting past a slash-free first segment peels it off. -/
theorem splitSlash_append_slash {a : List Char} (ha : '/' ∉ a)
    (r : List Char) : splitSlash (a ++ '/' :: r) = a :: splitSlash r := by
  induction a with
  | nil => simp [splitSlash]
  | cons c rest ih =>
    have hc : c ≠ '/' := by intro h; exact ha (by simp [h])
    have hr : '/' ∉ rest := fun h => ha (by simp [h])
    have hne := splitSlash_ne_nil r
    simp [splitSlash, hc, ih hr]

theorem shardSegs_of_head_ne {p : List (List Char)}
    (hd : p.headI ≠ "data".toList) (hi : p.headI ≠ "index".toList) :
    shardSegs p = p := by
  match p with
  | [] => rfl
  | [seg0] => rfl
  | seg0 :: h :: rest =>
    have hcond : ¬ ((seg0 = "data".toList ∨ seg0 = "index".toList) ∧
        4 < h.length) := by
      rintro ⟨hc | hc, -⟩
      · exact hd hc
      · exact hi hc
    rw [shardSegs_cons_cons, if_neg hcond]

theorem dropWhile_slash_data (h : List Char) :
    ("data".toList ++ '/' :: h).dropWhile (fun c => c = '/') =
      "data".toList ++ '/' :: h := by
  simp [List.dropWhile_cons]

theorem dropWhile_slash_index (r : List Char) :
    ("index".toList ++ '/' :: r).dropWhile (fun c => c = '/') =
      "index".toList ++ '/' :: r := by
  simp [List.dropWhile_cons]

theorem splitSlash_cons_slash (rest : List Char) :
    splitSlash ('/' :: rest) = [] :: splitSlash rest := by
  simp [splitSlash]

theorem splitSlash_cons_ne {c : Char} (hc : c ≠ '/') (rest : List Char) :
    splitSlash (c :: rest) =
      (c :: (splitSlash rest).headI) :: (splitSlash rest).tail := by
  simp [splitSlash, hc]

/-- Every segment produced by `splitSlash` is slash-free. -/
theorem splitSlash_mem_no_slash :
    ∀ (cs : List Char) (s : List Char), s ∈ splitSlash cs → '/' ∉ s := by
  intro cs
  induction cs with
  | nil =>
    intro s hs
    simp only [splitSlash, List.mem_singleton] at hs
    subst hs
    simp
  | cons c rest ih =>
    intro s hs
    obtain ⟨t, ts, hts⟩ := List.exists_cons_of_ne_nil (splitSlash_ne_nil rest)
    by_cases hc : c = '/'
    · subst hc
      rw [splitSlash_cons_slash] at hs
      rcases List.mem_cons.mp hs with h | h
      · subst h; simp
      · exact ih s h
    · rw [splitSlash_cons_ne hc, hts] at hs
      simp only [List.headI, List.tail_cons] at hs
      rcases List.mem_cons.mp hs with h | h
      · subst h
        intro hmem
        rcases List.mem_cons.mp hmem with h' | h'
        · exact hc h'.symm
        · exact ih t (by rw [hts]; exact List.mem_cons_self t ts) h'
      · exact ih s (by rw [hts]; exact List.mem_cons_of_mem t h)

/-- Rejoining then splitting recovers any nonempty list of slash-free
segments (empty segments included: the split/join pair is exact — it is
`os.path.join` that collapses). -/
theorem splitSlash_joinSlash :
    ∀ (parts : List (List Char)), parts ≠ [] →
      (∀ s ∈ parts, '/' ∉ s) → splitSlash (joinSlash parts) = parts := by
  intro parts
  induction parts with
  | nil => intro h; exact absurd rfl h
  | cons s ss ih =>
    intro _ hns
    cases ss with
    | nil =>
      rw [show joinSlash [s] = s from rfl]
      exact splitSlash_no_slash (hns s (List.mem_singleton_self s))
    | cons t ts =>
      rw [show joinSlash (s :: t :: ts) = s ++ '/' :: joinSlash (t :: ts)
        from rfl]
      rw [splitSlash_append_slash (hns s (List.mem_cons_self s (t :: ts)))]
      rw [ih (by simp) (fun u hu => hns u (List.mem_cons_of_mem s hu))]

theorem joinSlash_inj {p₁ p₂ : List (List Char)} (h₁ : p₁ ≠ [])
    (h₂ : p₂ ≠ []) (hs₁ : ∀ s ∈ p₁, '/' ∉ s) (hs₂ : ∀ s ∈ p₂, '/' ∉ s)
    (heq : joinSlash p₁ = joinSlash p₂) : p₁ = p₂ := by
  have e₁ := splitSlash_joinSlash p₁ h₁ hs₁
  have e₂ := splitSlash_joinSlash p₂ h₂ hs₂
  rw [← e₁, ← e₂, heq]

theorem headNeSlash {b : List Char} (hb : b ≠ []) (hs : '/' ∉ b) :
    b.head? ≠ some '/' := by
  match b with
  | [] => exact absurd rfl hb
  | c :: cs =>
    simp only [List.head?_cons]
    intro h
    injection h with h
    exact hs (by rw [← h]; exact List.mem_cons_self c cs)

theorem getLastNeSlash {b : List Char} (hs : '/' ∉ b) :
    b.getLast? ≠ some '/' := by
  intro h
  exact hs (List.mem_of_getLast?_eq_some h)

theorem ospJoinStep_of_good {path b : List Char} (hb : b ≠ [])
    (hs : '/' ∉ b) (hp : path ≠ []) (hlast : path.getLast? ≠ some '/') :
    ospJoinStep path b = path ++ '/' :: b := by
  rw [ospJoinStep, if_neg (headNeSlash hb hs),
    if_neg (not_or.mpr ⟨hp, hlast⟩)]

/-- The join loop over nonempty slash-free components, once the running
path is nonempty and does not end in a separator, appends a separator and
the rejoined components. -/
theorem ospJoin_go :
    ∀ (parts : List (List Char)) (path : List Char), parts ≠ [] →
      (∀ s ∈ parts, '/' ∉ s ∧ s ≠ []) →
      path ≠ [] → path.getLast? ≠ some '/' →
      ospJoin path parts = path ++ '/' :: joinSlash parts := by
  intro parts
  induction parts with
  | nil => intro path h; exact absurd rfl h
  | cons b rest ih =>
    intro path _ hgood hp hlast
    have hb := hgood b (List.mem_cons_self b rest)
    rw [show ospJoin path (b :: rest) =
      ospJoin (ospJoinStep path b) rest from rfl]
    rw [ospJoinStep_of_good hb.2 hb.1 hp hlast]
    cases rest with
    | nil =>
      rw [show ospJoin (path ++ '/' :: b) [] = path ++ '/' :: b from rfl]
      rfl
    | cons t ts =>
      have hp' : path ++ '/' :: b ≠ [] := by simp
      have hlast' : (path ++ '/' :: b).getLast? ≠ some '/' := by
        rw [show path ++ '/' :: b = (path ++ ['/']) ++ b from by simp]
        rw [List.getLast?_append_of_ne_nil (path ++ ['/']) hb.2]
        exact getLastNeSlash hb.1
      rw [ih (path ++ '/' :: b) (by simp)
        (fun s hs => hgood s (List.mem_cons_of_mem b hs)) hp' hlast']
      rw [show joinSlash (b :: t :: ts) = b ++ '/' :: joinSlash (t :: ts)
        from rfl]
      simp

/-- Closed form for `os.path.join` over nonempty slash-free components:
the root (with a separator appended unless it is empty or already ends in
one) followed by the components rejoined with separators. -/
theorem ospJoin_eq_join {root : List Char} {parts : List (List Char)}
    (hne : parts ≠ []) (hgood : ∀ s ∈ parts, '/' ∉ s ∧ s ≠ []) :
    ospJoin root parts =
      (if root = [] then [] else
        if root.getLast? = some '/' then root else root ++ ['/']) ++
        joinSlash parts := by
  match parts with
  | b :: rest =>
    have hb := hgood b (List.mem_cons_self b rest)
    by_cases hroot : root = []
    · subst hroot
      rw [if_pos rfl]
      rw [show ospJoin [] (b :: rest) =
        ospJoin (ospJoinStep [] b) rest from rfl]
      rw [show ospJoinStep [] b = b from by
        rw [ospJoinStep, if_neg (headNeSlash hb.2 hb.1),
          if_pos (Or.inl rfl)]
        simp]
      cases rest with
      | nil => rw [show ospJoin b [] = b from rfl]; rfl
      | cons t ts =>
        rw [ospJoin_go (t :: ts) b (by simp)
          (fun s hs => hgood s (List.mem_cons_of_mem b hs)) hb.2
          (getLastNeSlash hb.1)]
        rw [show joinSlash (b :: t :: ts) = b ++ '/' :: joinSlash (t :: ts)
          from rfl]
        simp
    · rw [if_neg hroot]
      by_cases hsl : root.getLast? = some '/'
      · rw [if_pos hsl]
        rw [show ospJoin root (b :: rest) =
          ospJoin (ospJoinStep root b) rest from rfl]
        rw [show ospJoinStep root b = root ++ b from by
          rw [ospJoinStep, if_neg (headNeSlash hb.2 hb.1),
            if_pos (Or.inr hsl)]]
        cases rest with
        | nil => rw [show ospJoin (root ++ b) [] = root ++ b from rfl]; rfl
        | cons t ts =>
          have hlast : (root ++ b).getLast? ≠ some '/' := by
            rw [List.getLast?_append_of_ne_nil root hb.2]
            exact getLastNeSlash hb.1
          rw [ospJoin_go (t :: ts) (root ++ b) (by simp)
            (fun s hs => hgood s (List.mem_cons_of_mem b hs))
            (by simp [hroot]) hlast]
          rw [show joinSlash (b :: t :: ts) = b ++ '/' :: joinSlash (t :: ts)
            from rfl]
          simp
      · rw [if_neg hsl]
        rw [ospJoin_go (b :: rest) root (by simp) hgood hroot hsl]
        simp

/-- The join is injective in the components once they are nonempty and
slash-free (which is exactly what rules out the `stream//a` collapse). -/
theorem ospJoin_inj {root : List Char} {p₁ p₂ : List (List Char)}
    (h₁ : p₁ ≠ []) (h₂ : p₂ ≠ [])
    (hg₁ : ∀ s ∈ p₁, '/' ∉ s ∧ s ≠ []) (hg₂ : ∀ s ∈ p₂, '/' ∉ s ∧ s ≠ [])
    (heq : ospJoin root p₁ = ospJoin root p₂) : p₁ = p₂ := by
  rw [ospJoin_eq_join h₁ hg₁, ospJoin_eq_join h₂ hg₂] at heq
  exact joinSlash_inj h₁ h₂ (fun s hs => (hg₁ s hs).1)
    (fun s hs => (hg₂ s hs).1) (List.append_cancel_left heq)

/-- Sharding preserves nonemptiness and slash-freeness of the segments
(the 2+2+rest pieces of a hash longer than 4 characters are nonempty). -/
theorem shardSegs_good {p : List (List Char)} (hne : p ≠ [])
    (hgood : ∀ s ∈ p, '/' ∉ s ∧ s ≠ []) (hwf : wfSegs p = true) :
    shardSegs p ≠ [] ∧ ∀ s ∈ shardSegs p, '/' ∉ s ∧ s ≠ [] := by
  match p with
  | [seg0] => exact ⟨by simp [shardSegs], by simpa [shardSegs] using hgood⟩
  | seg0 :: h :: rest =>
    by_cases hd : seg0 = "data".toList ∨ seg0 = "index".toList
    · have hlen : 4 < h.length := by
        have heq : wfSegs (seg0 :: h :: rest) =
            (if seg0 = "data".toList ∨ seg0 = "index".toList then
              decide (4 < h.length) else true) := rfl
        rw [heq, if_pos hd] at hwf
        exact of_decide_eq_true hwf
      have hh := hgood h (List.mem_cons_of_mem seg0 (List.mem_cons_self h rest))
      rw [shardSegs_cons_cons, if_pos ⟨hd, hlen⟩]
      refine ⟨by simp, ?_⟩
      intro s hs
      simp only [List.mem_cons] at hs
      rcases hs with h1 | h1 | h1 | h1 | h1
      · subst h1
        exact hgood _ (List.mem_cons_self _ _)
      · subst h1
        refine ⟨fun hmem => hh.1 (List.take_subset 2 h hmem), ?_⟩
        refine List.length_pos.mp ?_
        simp [List.length_take]; omega
      · subst h1
        refine ⟨fun hmem =>
          hh.1 (List.drop_subset 2 h (List.take_subset 2 (h.drop 2) hmem)),
          ?_⟩
        refine List.length_pos.mp ?_
        simp [List.length_take, List.length_drop]; omega
      · subst h1
        refine ⟨fun hmem => hh.1 (List.drop_subset 4 h hmem), ?_⟩
        refine List.length_pos.mp ?_
        simp [List.length_drop]; omega
      · exact hgood s (List.mem_cons_of_mem seg0
          (List.mem_cons_of_mem h h1))
    · rw [shardSegs_cons_cons, if_neg (fun hc => hd hc.1)]
      exact ⟨by simp, hgood⟩

theorem wfKey_parts {k : List Char} (hwf : wfKey k = true) :
    (splitSlash k).all (fun s => decide (s ≠ [])) = true ∧
      wfSegs (splitSlash k) = true := by
  rw [wfKey, Bool.and_eq_true] at hwf
  exact hwf

theorem dropWhile_of_wfKey {k : List Char} (hwf : wfKey k = true) :
    k.dropWhile (fun c => c = '/') = k := by
  have hall := (wfKey_parts hwf).1
  rw [List.all_eq_true] at hall
  cases k with
  | nil =>
    exfalso
    have := hall [] (by
      rw [show splitSlash ([] : List Char) = [[]] from rfl]
      exact List.mem_singleton_self _)
    simp at this
  | cons c rest =>
    have hc : c ≠ '/' := by
      intro hc
      subst hc
      have := hall [] (by
        rw [splitSlash_cons_slash]
        exact List.mem_cons_self _ _)
      simp at this
    simp [List.dropWhile_cons, hc]

/-- The segments of a well-formed key are slash-free and nonempty. -/
theorem wfKey_segs_good {k : List Char} (hwf : wfKey k = true) :
    ∀ s ∈ splitSlash k, '/' ∉ s ∧ s ≠ [] := by
  have hall := (wfKey_parts hwf).1
  rw [List.all_eq_true] at hall
  intro s hs
  exact ⟨splitSlash_mem_no_slash k s hs, of_decide_eq_true (hall s hs)⟩

/-- The map `s3_path_to_local` is injective on well-formed keys. -/
theorem s3_path_to_local_injOn (root : List Char) {k₁ k₂ : List Char}
    (h₁ : wfKey k₁ = true) (h₂ : wfKey k₂ = true)
    (heq : s3_path_to_local root k₁ = s3_path_to_local root k₂) : k₁ = k₂ := by
  have hw₁ : wfSegs (splitSlash k₁) = true := (wfKey_parts h₁).2
  have hw₂ : wfSegs (splitSlash k₂) = true := (wfKey_parts h₂).2
  have hg₁ := shardSegs_good (splitSlash_ne_nil k₁) (wfKey_segs_good h₁) hw₁
  have hg₂ := shardSegs_good (splitSlash_ne_nil k₂) (wfKey_segs_good h₂) hw₂
  rw [s3_path_to_local, s3_path_to_local, dropWhile_of_wfKey h₁,
    dropWhile_of_wfKey h₂] at heq
  have hshard := ospJoin_inj hg₁.1 hg₂.1 hg₁.2 hg₂.2 heq
  have hsegs : splitSlash k₁ = splitSlash k₂ := by
    have := congrArg unshardSegs hshard
    rwa [unshardSegs_shardSegs _ hw₁, unshardSegs_shardSegs _ hw₂] at this
  exact splitSlash_injective hsegs

/-- C8 counterexample: the distinct keys `data/abcdef` and `data/ab/cd/ef`
shard to the same local path, and — because `os.path.join` collapses empty
components — so do `stream//a` and `stream/a`: the mapping is not injective
on arbitrary distinct keys. -/
theorem s3_path_to_local_collision :
    ("data/abcdef".toList ≠ "data/ab/cd/ef".toList ∧
      s3_path_to_local [] "data/abcdef".toList =
        s3_path_to_local [] "data/ab/cd/ef".toList) ∧
    ("stream//a".toList ≠ "stream/a".toList ∧
      s3_path_to_local [] "stream//a".toList =
        s3_path_to_local [] "stream/a".toList) := by
  refine ⟨⟨by decide, by decide⟩, by decide, by decide⟩

/-- C8 (amended): `s3_path_to_local` is deterministic and injective on
well-formed keys (no empty segments, so no leading/trailing/doubled
slashes; a `data`/`index` head is followed by a hash segment longer than 4
characters — true of everything the system writes); for `data/` and
`index/` keys whose hash segment is longer than 4 characters the local
path joins the 2+2+rest split of the hash as nested directories under the
root; keys under other prefixes are joined to the local root with their
own segments unchanged. -/
theorem s3_path_to_local_spec (root : List Char) :
    (∀ k₁ k₂ : List Char, wfKey k₁ = true → wfKey k₂ = true →
        s3_path_to_local root k₁ = s3_path_to_local root k₂ → k₁ = k₂) ∧
    (∀ h : List Char, '/' ∉ h → 4 < h.length →
        s3_path_to_local root ("data".toList ++ '/' :: h) =
          ospJoin root ["data".toList, h.take 2, (h.drop 2).take 2,
            h.drop 4]) ∧
    (∀ h f : List Char, '/' ∉ h → '/' ∉ f → 4 < h.length →
        s3_path_to_local root ("index".toList ++ '/' :: (h ++ '/' :: f)) =
          ospJoin root ["index".toList, h.take 2, (h.drop 2).take 2,
            h.drop 4, f]) ∧
    (∀ k : List Char,
        (splitSlash (k.dropWhile (fun c => c = '/'))).headI ≠ "data".toList →
        (splitSlash (k.dropWhile (fun c => c = '/'))).headI ≠ "index".toList →
        s3_path_to_local root k =
          ospJoin root (splitSlash (k.dropWhile (fun c => c = '/')))) := by
  refine ⟨fun k₁ k₂ h₁ h₂ heq => s3_path_to_local_injOn root h₁ h₂ heq,
    fun h hs hlen => ?_, fun h f hs hf hlen => ?_, fun k hd hi => ?_⟩
  · rw [s3_path_to_local, dropWhile_slash_data,
      splitSlash_append_slash (by decide), splitSlash_no_slash hs,
      shardSegs_cons_cons, if_pos ⟨Or.inl rfl, hlen⟩]
  · rw [s3_path_to_local, dropWhile_slash_index,
      splitSlash_append_slash (by decide), splitSlash_append_slash hs,
      splitSlash_no_slash hf, shardSegs_cons_cons, if_pos ⟨Or.inr rfl, hlen⟩]
  · rw [s3_path_to_local, shardSegs_of_head_ne hd hi]

/-- Witness for `s3_path_to_local_spec` at concrete keys. -/
theorem s3_path_to_local_spec_witness :
    "data/abcdefg".toList = "data/abcdefg".toList ∧
      s3_path_to_local [] ("data".toList ++ '/' :: "abcdefg".toList) =
        ospJoin [] ["data".toList, "abcdefg".toList.take 2,
          ("abcdefg".toList.drop 2).take 2, "abcdefg".toList.drop 4] ∧
      s3_path_to_local []
          ("index".toList ++ '/' ::
            ("abcdefg".toList ++ '/' :: "x.json".toList)) =
        ospJoin [] ["index".toList, "abcdefg".toList.take 2,
          ("abcdefg".toList.drop 2).take 2, "abcdefg".toList.drop 4,
          "x.json".toList] ∧
      s3_path_to_local [] "stream/t_i.json".toList =
        ospJoin []
          (splitSlash ("stream/t_i.json".toList.dropWhile
            (fun c => c = '/'))) := by
  have T := s3_path_to_local_spec []
  exact ⟨T.1 "data/abcdefg".toList "data/abcdefg".toList (by decide)
      (by decide) rfl,
    T.2.1 "abcdefg".toList (by decide) (by decide),
    T.2.2.1 "abcdefg".toList "x.json".toList (by decide) (by decide)
      (by decide),
    T.2.2.2 "stream/t_i.json".toList (by decide) (by decide)⟩



theorem thawStep_not_frozen {o : ThawObj} (hf : isFrozenClass o = false)
    (st : Nat × List String) : thawStep st o = st := by
  have h : o.storage_class ≠ "GLACIER" ∧ o.storage_class ≠ "DEEP_ARCHIVE" := by
    have := of_decide_eq_false hf
    exact ⟨fun hc => this (Or.inl hc), fun hc => this (Or.inr hc)⟩
  simp [thawStep, h]

theorem thawStep_frozen_cond {o : ThawObj} (hf : isFrozenClass o = true) :
    ¬ (o.storage_class ≠ "GLACIER" ∧ o.storage_class ≠ "DEEP_ARCHIVE") := by
  have := of_decide_eq_true hf
  rcases this with hc | hc
  · exact fun hn => hn.1 hc
  · exact fun hn => hn.2 hc

theorem thawStep_thawed {o : ThawObj} (hf : isFrozenClass o = true)
    (ht : is_thawed o = true) (st : Nat × List String) : thawStep st o = st := by
  simp [thawStep, thawStep_frozen_cond hf, ht]

theorem thawStep_thawing {o : ThawObj} (hf : isFrozenClass o = true)
    (ht : is_thawed o = false) (hg : is_thawing o = true)
    (st : Nat × List String) : thawStep st o = (st.1 + 1, st.2) := by
  simp [thawStep, thawStep_frozen_cond hf, ht, hg]

theorem thawStep_request {o : ThawObj} (hf : isFrozenClass o = true)
    (ht : is_thawed o = false) (hg : is_thawing o = false)
    (st : Nat × List String) :
    thawStep st o = (st.1 + 1, st.2 ++ [o.key]) := by
  simp [thawStep, thawStep_frozen_cond hf, ht, hg]

/-- Characterization of the thaw fold: the counter counts frozen-but-not-
thawed objects, and the issued requests are exactly the keys of frozen
objects that are neither thawed nor already thawing, in listing order. -/
theorem do_thaw_fold (l : List ThawObj) : ∀ (n : Nat) (acc : List String),
    (l.foldl thawStep (n, acc)).1 =
        n + l.countP (fun o => isFrozenClass o && !is_thawed o) ∧
      (l.foldl thawStep (n, acc)).2 =
        acc ++ (l.filter
          (fun o => isFrozenClass o && !is_thawed o && !is_thawing o)).map
            ThawObj.key := by
  induction l with
  | nil => intro n acc; simp
  | cons o rest ih =>
    intro n acc
    simp only [List.foldl_cons, List.countP_cons, List.filter_cons]
    cases hf : isFrozenClass o with
    | false =>
      rw [thawStep_not_frozen hf]
      simpa [hf, Nat.add_assoc] using ih n acc
    | true =>
      cases ht : is_thawed o with
      | true =>
        rw [thawStep_thawed hf ht]
        simpa [hf, ht, Nat.add_assoc] using ih n acc
      | false =>
        cases hg : is_thawing o with
        | true =>
          rw [thawStep_thawing hf ht hg]
          have := ih (n + 1) acc
          constructor
          · rw [this.1]; simp [hf, ht]; omega
          · rw [this.2]; simp [hf, ht, hg]
        | false =>
          rw [thawStep_request hf ht hg]
          have := ih (n + 1) (acc ++ [o.key])
          constructor
          · rw [this.1]; simp [hf, ht]; omega
          · rw [this.2]; simp [hf, ht, hg]

/-- C4: `do_thaw` issues no restore request for an object that is already
restored-and-not-expired (`is_thawed`) or whose restore is in progress
(`is_thawing`); and over a listing with distinct keys (as an S3 listing is)
it never issues two requests for the same key.  Re-running `thaw` while
objects are mid-restore is the `is_thawing` case, so no run issues a
duplicate request for such a key. -/
theorem do_thaw_idempotent (listing : List ThawObj)
    (hnd : (listing.map ThawObj.key).Nodup) :
    (∀ o ∈ listing, is_thawed o = true ∨ is_thawing o = true →
        o.key ∉ (do_thaw listing).2) ∧
      (do_thaw listing).2.Nodup := by
  have hreq : (do_thaw listing).2 =
      (listing.filter
        (fun o => isFrozenClass o && !is_thawed o && !is_thawing o)).map
          ThawObj.key :=
    (do_thaw_fold listing 0 []).2
  constructor
  · intro o hmem hstate hkey
    rw [hreq] at hkey
    simp only [List.mem_map] at hkey
    obtain ⟨o', ho'mem, ho'key⟩ := hkey
    have ho'filter := List.of_mem_filter ho'mem
    have ho'list := List.mem_of_mem_filter ho'mem
    have : o' = o :=
      List.inj_on_of_nodup_map hnd ho'list hmem ho'key
    subst this
    simp only [Bool.and_eq_true, Bool.not_eq_true'] at ho'filter
    rcases hstate with hs | hs
    · rw [hs] at ho'filter; exact absurd ho'filter.1.2 (by simp)
    · rw [hs] at ho'filter; exact absurd ho'filter.2 (by simp)
  · rw [hreq]
    exact hnd.sublist (List.Sublist.map ThawObj.key (List.filter_sublist _))

/-- Witness for `do_thaw_idempotent`: on the demo listing, the mid-restore
object receives no request and the issued requests are duplicate-free. -/
theorem do_thaw_idempotent_witness :
    "data/aa" ∉ (do_thaw thawDemoListing).2 ∧
      (do_thaw thawDemoListing).2.Nodup := by
  have T := do_thaw_idempotent thawDemoListing (by decide)
  exact ⟨T.1 ⟨"data/aa", "GLACIER", some "ongoing-request=\"true\""⟩
    (by decide) (Or.inr (by decide)), T.2⟩

/-- C5 counterexample: with a single mid-restore object, `do_thaw` reports a
count of 1 while zero restore requests were issued in the run, so the
reported count is not the number of requests issued. -/
theorem do_thaw_count_counterexample :
    (do_thaw [⟨"data/k", "GLACIER", some "ongoing-request=\"true\""⟩]).1 = 1 ∧
      (do_thaw [⟨"data/k", "GLACIER", some "ongoing-request=\"true\""⟩]).2 = [] ∧
      (do_thaw [⟨"data/k", "GLACIER", some "ongoing-request=\"true\""⟩]).1 ≠
        (do_thaw [⟨"data/k", "GLACIER",
          some "ongoing-request=\"true\""⟩]).2.length := by
  refine ⟨by decide, by decide, by decide⟩

/-- C5 (amended): the count reported by `do_thaw` equals the number of
frozen objects not yet restored — those newly requested in this run plus
those whose restore is already in progress; the number of requests issued
counts only the former; and when no object is frozen the "no action
needed" branch is reported. -/
theorem do_thaw_count_spec (listing : List ThawObj) :
    (do_thaw listing).1 =
        listing.countP (fun o => isFrozenClass o && !is_thawed o) ∧
      (do_thaw listing).2.length =
        (listing.filter
          (fun o => isFrozenClass o && !is_thawed o && !is_thawing o)).length ∧
      ((∀ o ∈ listing, isFrozenClass o = false) →
        thawNoActionNeeded listing = true) := by
  have hcount : (do_thaw listing).1 =
      0 + listing.countP (fun o => isFrozenClass o && !is_thawed o) :=
    (do_thaw_fold listing 0 []).1
  have hreq : (do_thaw listing).2 =
      (listing.filter
        (fun o => isFrozenClass o && !is_thawed o && !is_thawing o)).map
          ThawObj.key :=
    (do_thaw_fold listing 0 []).2
  refine ⟨by rw [hcount]; omega, by rw [hreq, List.length_map], ?_⟩
  intro hnone
  have hc : listing.countP (fun o => isFrozenClass o && !is_thawed o) = 0 := by
    rw [List.countP_eq_zero]
    intro o hmem
    simp [hnone o hmem]
  rw [thawNoActionNeeded, hcount, hc]
  rfl

/-- Witness for `do_thaw_count_spec` on the demo listing: count 2 (one
mid-restore plus one newly requested), one issued request, and the
no-action branch on an all-hot listing. -/
theorem do_thaw_count_spec_witness :
    (do_thaw thawDemoListing).1 = 2 ∧
      (do_thaw thawDemoListing).2.length = 1 ∧
      thawNoActionNeeded [⟨"data/cc", "STANDARD", none⟩] = true := by
  have T := do_thaw_count_spec thawDemoListing
  have T2 := do_thaw_count_spec [⟨"data/cc", "STANDARD", none⟩]
  refine ⟨?_, ?_, T2.2.2 (by decide)⟩
  · rw [T.1]; decide
  · rw [T.2.1]; decide

theorem downloadStep_skip {destdir : List Char} {fs : DlFs}
    {acc : List (List Char)} {o : S3Obj}
    (h : localMatch fs (s3_path_to_local destdir o.key) o.size = true) :
    downloadStep destdir (fs, acc) o = (fs, acc) := by
  simp [downloadStep, h]

theorem downloadStep_transfer {destdir : List Char} {fs : DlFs}
    {acc : List (List Char)} {o : S3Obj}
    (h : localMatch fs (s3_path_to_local destdir o.key) o.size = false) :
    downloadStep destdir (fs, acc) o =
      (updateFs fs (s3_path_to_local destdir o.key) o.size,
        acc ++ [o.key]) := by
  simp [downloadStep, h]

/-- Characterization of the download fold, assuming the iterated objects
have pairwise distinct sharded paths (true of distinct well-formed keys):
the transferred keys are exactly those whose pre-run local file is missing
or of the wrong size, and the local tree is untouched away from the
iterated objects' sharded paths. -/
theorem download_fold (destdir : List Char) :
    ∀ (objs : List S3Obj) (fs : DlFs) (acc : List (List Char)),
    objs.Pairwise (fun a b =>
      s3_path_to_local destdir a.key ≠ s3_path_to_local destdir b.key) →
    (objs.foldl (downloadStep destdir) (fs, acc)).2 =
        acc ++ (objs.filter (fun o =>
          !localMatch fs (s3_path_to_local destdir o.key) o.size)).map
            S3Obj.key ∧
      (∀ p, (∀ o ∈ objs, p ≠ s3_path_to_local destdir o.key) →
        (objs.foldl (downloadStep destdir) (fs, acc)).1 p = fs p) := by
  intro objs
  induction objs with
  | nil => intro fs acc _; simp
  | cons o rest ih =>
    intro fs acc hpw
    have hne : ∀ b ∈ rest,
        s3_path_to_local destdir o.key ≠ s3_path_to_local destdir b.key :=
      (List.pairwise_cons.mp hpw).1
    have hpwrest := (List.pairwise_cons.mp hpw).2
    simp only [List.foldl_cons, List.filter_cons]
    cases hm : localMatch fs (s3_path_to_local destdir o.key) o.size with
    | true =>
      rw [downloadStep_skip hm]
      have := ih fs acc hpwrest
      refine ⟨by rw [this.1]; simp [hm], ?_⟩
      intro p hp
      exact this.2 p (fun b hb => hp b (List.mem_cons_of_mem o hb))
    | false =>
      rw [downloadStep_transfer hm]
      have hfs' : ∀ b ∈ rest,
          localMatch (updateFs fs (s3_path_to_local destdir o.key) o.size)
              (s3_path_to_local destdir b.key) b.size =
            localMatch fs (s3_path_to_local destdir b.key) b.size := by
        intro b hb
        have : s3_path_to_local destdir b.key ≠
            s3_path_to_local destdir o.key := fun h => hne b hb h.symm
        simp [localMatch, updateFs, this]
      have := ih (updateFs fs (s3_path_to_local destdir o.key) o.size)
        (acc ++ [o.key]) hpwrest
      constructor
      · rw [this.1]
        have hfilter : rest.filter (fun b =>
            !localMatch (updateFs fs (s3_path_to_local destdir o.key) o.size)
              (s3_path_to_local destdir b.key) b.size) =
            rest.filter (fun b =>
              !localMatch fs (s3_path_to_local destdir b.key) b.size) := by
          apply List.filter_congr
          intro b hb
          rw [hfs' b hb]
        rw [hfilter]
        simp [hm]
      · intro p hp
        have hpo : p ≠ s3_path_to_local destdir o.key :=
          hp o (List.mem_cons_self o rest)
        rw [this.2 p (fun b hb => hp b (List.mem_cons_of_mem o hb))]
        simp [updateFs, hpo]

/-- C10: `do_download` iterates exactly the listing's `index/` and `data/`
objects; assuming they have pairwise distinct sharded paths (true of the
distinct hash-based keys the system writes), the transferred keys are
exactly the `index/`/`data/` keys for which no local file of the remote
object's size already exists at the sharded path; every transferred key is
under one of the two prefixes; and the local tree is unchanged except at
the sharded paths of the iterated `index/`/`data/` objects — objects under
other prefixes (`stream/`, `README_*`, `LAST_UPDATE.txt`) are never
transferred or materialized. -/
theorem do_download_spec (destdir : List Char) (listing : List S3Obj)
    (fs0 : DlFs)
    (hpw : (downloadList listing).Pairwise (fun a b =>
      s3_path_to_local destdir a.key ≠ s3_path_to_local destdir b.key)) :
    (do_download destdir listing fs0).2 =
        ((downloadList listing).filter (fun o =>
          !localMatch fs0 (s3_path_to_local destdir o.key) o.size)).map
            S3Obj.key ∧
      (∀ k ∈ (do_download destdir listing fs0).2,
        "index/".toList.isPrefixOf k = true ∨
          "data/".toList.isPrefixOf k = true) ∧
      (∀ p, (do_download destdir listing fs0).1 p ≠ fs0 p →
        ∃ o ∈ downloadList listing, p = s3_path_to_local destdir o.key) := by
  have hfold := download_fold destdir (downloadList listing) fs0 [] hpw
  have htrans : (do_download destdir listing fs0).2 =
      ((downloadList listing).filter (fun o =>
        !localMatch fs0 (s3_path_to_local destdir o.key) o.size)).map
          S3Obj.key := hfold.1
  refine ⟨htrans, ?_, ?_⟩
  · intro k hk
    rw [htrans] at hk
    simp only [List.mem_map] at hk
    obtain ⟨o, homem, hokey⟩ := hk
    have holist := List.mem_of_mem_filter homem
    rw [downloadList, List.mem_append] at holist
    subst hokey
    rcases holist with h | h
    · exact Or.inl (List.mem_filter.mp h).2
    · exact Or.inr (List.mem_filter.mp h).2
  · intro p hp
    by_contra hno
    push_neg at hno
    exact hp (hfold.2 p (fun o ho heq => hno o ho heq))

/-- Witness for `do_download_spec`: only the missing `index/` object is
transferred; the `stream/` object is not. -/
theorem do_download_spec_witness :
    (do_download [] dlDemoListing dlDemoFs).2 =
        ["index/abcdefg/i.json".toList] ∧
      "stream/t_i.json".toList ∉ (do_download [] dlDemoListing dlDemoFs).2 := by
  have T := do_download_spec [] dlDemoListing dlDemoFs (by decide)
  constructor
  · rw [T.1]; decide
  · rw [T.1]; decide

/-- C1: on the failing input, `do_rebuild` first copies the newer record's
content, then — because the existing destination's size differs from the
older record's source size — copies the older record's content over it: the
final content of `/f` is the OLDER (T1) record's, contradicting
newest-wins (and the source's own comment "info from newer indexes takes
precedence"). -/
theorem rebuild_newest_wins_violated :
    (match do_rebuild [] c1SrcFs [some c1OldRec, some c1NewRec]
        (fun _ => none) with
      | .ok (d, _) => d "f".toList
      | .error _ => none) = some ⟨"y".toList, 1⟩ ∧
      "y".toList ≠ "xx".toList := by
  constructor
  · decide
  · decide

/-- C6 counterexample: a malformed index file aborts the whole rebuild
before any record — including the perfectly good one after it — is
processed, instead of being logged and skipped. -/
theorem rebuild_malformed_aborts :
    do_rebuild [] c1SrcFs [none, some c1OldRec] (fun _ => none) =
      .error .malformedIndex := by
  rfl

/-- C6 (amended): an error raised by the copy itself — e.g. the record's
source content object missing while no destination file exists yet — is
logged (`COPY` then `ERROR`) and does not abort the batch: the fold
continues over the remaining records with the destination tree unchanged.
(A malformed index file, or a missing source object for a record whose
destination already exists, instead aborts the whole rebuild: see the
counterexample and `rebuildStep`.) -/
theorem rebuild_copy_error_continues (srcdir : List Char)
    (srcFs : SrcFs) (dest : DestFs) (log : List REvent) (r : IndexRec)
    (rest : List IndexRec) (hsrc : srcFs (srcName srcdir r) = none)
    (hdest : dest (destName r) = none) :
    rebuildStep srcdir srcFs (dest, log) r =
        .ok (dest, log ++ [.copy r, .errCopy r]) ∧
      (r :: rest).foldlM (rebuildStep srcdir srcFs) (dest, log) =
        rest.foldlM (rebuildStep srcdir srcFs)
          (dest, log ++ [.copy r, .errCopy r]) := by
  have hstep : rebuildStep srcdir srcFs (dest, log) r =
      .ok (dest, log ++ [.copy r, .errCopy r]) := by
    rw [rebuildStep]
    dsimp only
    rw [hdest, hsrc]
  refine ⟨hstep, ?_⟩
  rw [List.foldlM_cons, hstep]
  rfl

/-- Witness for `rebuild_copy_error_continues`: a record with a missing
source object is logged and the next record is still processed. -/
theorem rebuild_copy_error_continues_witness :
    rebuildStep [] c1SrcFs ((fun _ => none), []) ⟨"/g".toList, 1, 5, "hh".toList⟩ =
        .ok ((fun _ => none),
          [.copy ⟨"/g".toList, 1, 5, "hh".toList⟩,
           .errCopy ⟨"/g".toList, 1, 5, "hh".toList⟩]) ∧
      (⟨"/g".toList, 1, 5, "hh".toList⟩ :: [c1OldRec]).foldlM
          (rebuildStep [] c1SrcFs) ((fun _ => none), []) =
        [c1OldRec].foldlM (rebuildStep [] c1SrcFs)
          ((fun _ => none),
            [.copy ⟨"/g".toList, 1, 5, "hh".toList⟩,
             .errCopy ⟨"/g".toList, 1, 5, "hh".toList⟩]) :=
  rebuild_copy_error_continues [] c1SrcFs (fun _ => none) []
    ⟨"/g".toList, 1, 5, "hh".toList⟩ [c1OldRec] (by decide) rfl

theorem uploadKey_skip {st : ArchSt} {k : Key} {body : String}
    (h : (st.remote k).isSome = true) :
    uploadKey st k body false =
      ({ st with uploads := st.uploads ++ [⟨k, body, false, false⟩] },
        false) := by
  simp [uploadKey, h]

theorem uploadKey_put {st : ArchSt} {k : Key} {body : String}
    (h : (st.remote k).isSome = false) :
    uploadKey st k body false =
      ({ st with remote := putRemote st.remote k body,
                 uploads := st.uploads ++ [⟨k, body, false, true⟩] },
        true) := by
  simp [uploadKey, h]

theorem uploadKey_replace (st : ArchSt) (k : Key) (body : String) :
    uploadKey st k body true =
      ({ st with remote := putRemote st.remote k body,
                 uploads := st.uploads ++ [⟨k, body, true, true⟩] },
        true) := by
  simp [uploadKey]

theorem archiveStep_dir {hash : String → String} {now : String}
    {rp : String → String} {env : String → PathKind} {st : ArchSt}
    {relfile : String} (h : env (rp relfile) = .directory) :
    archiveStep hash now rp env st relfile =
      { st with log := st.log ++ [.skipDir (rp relfile)] } := by
  simp only [archiveStep, h]

theorem archiveStep_missing {hash : String → String} {now : String}
    {rp : String → String} {env : String → PathKind} {st : ArchSt}
    {relfile : String} (h : env (rp relfile) = .missing) :
    archiveStep hash now rp env st relfile =
      { st with
        log := st.log ++ [.doesNotExist (rp relfile), .errorEvt relfile] } := by
  simp only [archiveStep, h]

theorem archiveStep_known {hash : String → String} {now : String}
    {rp : String → String} {env : String → PathKind} {st : ArchSt}
    {relfile : String} {v0 v1 v2 : FileView} {fr : DbRec}
    (h : env (rp relfile) = .file v0 v1 v2)
    (hl : lookupDb st.db (rp relfile) v0.mtime v0.content.length = some fr) :
    archiveStep hash now rp env st relfile =
      { st with log := st.log ++ [.skipKnown (rp relfile)] } := by
  simp only [archiveStep, h, hl]

theorem archiveStep_conflict {hash : String → String} {now : String}
    {rp : String → String} {env : String → PathKind} {st : ArchSt}
    {relfile : String} {v0 v1 v2 : FileView}
    (h : env (rp relfile) = .file v0 v1 v2)
    (hl : lookupDb st.db (rp relfile) v0.mtime v0.content.length = none)
    (habsent : st.remote (Key.data (hash v1.content)) = none)
    (hmod : v0.mtime ≠ v2.mtime ∨ v0.content.length ≠ v2.content.length) :
    archiveStep hash now rp env st relfile =
      { st with
        remote := eraseRemote
          (putRemote st.remote (Key.data (hash v1.content)) v1.content)
          (Key.data (hash v1.content)),
        uploads := st.uploads ++
          [⟨Key.data (hash v1.content), v1.content, false, true⟩],
        deletes := st.deletes ++ [Key.data (hash v1.content)],
        log := st.log ++ [.concurrentModification (rp relfile)] } := by
  have hns : (st.remote (Key.data (hash v1.content))).isSome = false := by
    rw [habsent]; rfl
  simp only [archiveStep, h, hl, upload_file, uploadKey_put hns]
  rw [if_pos ⟨trivial, hmod⟩]

/-- C7: a path that canonicalizes to a directory or to nothing is skipped
with a logged diagnostic (SKIP_DIR, or DOES_NOT_EXIST followed by the
caught-exception ERROR line): no upload call is made, the bucket, the
recorded deletes and the cache are untouched, and the loop proceeds with
the remaining paths. -/
theorem archive_skips_dirs_and_missing (hash : String → String) (now : String)
    (rp : String → String) (env : String → PathKind) (st : ArchSt)
    (relfile : String)
    (h : env (rp relfile) = .directory ∨ env (rp relfile) = .missing) :
    (archiveStep hash now rp env st relfile).uploads = st.uploads ∧
      (archiveStep hash now rp env st relfile).remote = st.remote ∧
      (archiveStep hash now rp env st relfile).deletes = st.deletes ∧
      (archiveStep hash now rp env st relfile).db = st.db ∧
      ((archiveStep hash now rp env st relfile).log =
          st.log ++ [.skipDir (rp relfile)] ∨
        (archiveStep hash now rp env st relfile).log =
          st.log ++ [.doesNotExist (rp relfile), .errorEvt relfile]) ∧
      (∀ rest : List String,
        (relfile :: rest).foldl (archiveStep hash now rp env) st =
          rest.foldl (archiveStep hash now rp env)
            (archiveStep hash now rp env st relfile)) := by
  rcases h with h | h
  · exact ⟨by rw [archiveStep_dir h], by rw [archiveStep_dir h],
      by rw [archiveStep_dir h], by rw [archiveStep_dir h],
      Or.inl (by rw [archiveStep_dir h]), fun rest => rfl⟩
  · exact ⟨by rw [archiveStep_missing h], by rw [archiveStep_missing h],
      by rw [archiveStep_missing h], by rw [archiveStep_missing h],
      Or.inr (by rw [archiveStep_missing h]), fun rest => rfl⟩

/-- Witness for `archive_skips_dirs_and_missing` on a directory path and on
a missing path, from the empty state. -/
theorem archive_skips_dirs_and_missing_witness :
    ((archiveStep (fun s => s) "T" (fun s => s) c7Env emptyArchSt "/d").uploads =
        emptyArchSt.uploads ∧
      (archiveStep (fun s => s) "T" (fun s => s) c7Env emptyArchSt "/d").db =
        emptyArchSt.db) ∧
    ((archiveStep (fun s => s) "T" (fun s => s) c7Env emptyArchSt "/nope").uploads =
        emptyArchSt.uploads ∧
      (archiveStep (fun s => s) "T" (fun s => s) c7Env emptyArchSt "/nope").db =
        emptyArchSt.db) := by
  have Td := archive_skips_dirs_and_missing (fun s => s) "T" (fun s => s)
    c7Env emptyArchSt "/d" (Or.inl (by decide))
  have Tm := archive_skips_dirs_and_missing (fun s => s) "T" (fun s => s)
    c7Env emptyArchSt "/nope" (Or.inr (by decide))
  exact ⟨⟨Td.1, Td.2.2.2.1⟩, ⟨Tm.1, Tm.2.2.2.1⟩⟩

/-- C2: when the content upload actually transferred bytes and the re-stat
after it observes a different mtime or size than the initial stat, the
just-written ContentObject is deleted (the bucket is pointwise as before),
the only upload call of the pass is the content upload — no MetadataRecord
and no StreamRecord upload happens — and the cache is not updated. -/
theorem archive_conflict_detection (hash : String → String) (now : String)
    (rp : String → String) (env : String → PathKind) (st : ArchSt)
    (relfile : String) (v0 v1 v2 : FileView)
    (henv : env (rp relfile) = .file v0 v1 v2)
    (hmiss : lookupDb st.db (rp relfile) v0.mtime v0.content.length = none)
    (habsent : st.remote (Key.data (hash v1.content)) = none)
    (hmod : v0.mtime ≠ v2.mtime ∨ v0.content.length ≠ v2.content.length) :
    (archiveStep hash now rp env st relfile).db = st.db ∧
      (archiveStep hash now rp env st relfile).uploads = st.uploads ++
        [⟨Key.data (hash v1.content), v1.content, false, true⟩] ∧
      (archiveStep hash now rp env st relfile).deletes = st.deletes ++
        [Key.data (hash v1.content)] ∧
      (∀ k, (archiveStep hash now rp env st relfile).remote k =
        st.remote k) ∧
      (archiveStep hash now rp env st relfile).log = st.log ++
        [.concurrentModification (rp relfile)] := by
  rw [archiveStep_conflict henv hmiss habsent hmod]
  refine ⟨rfl, rfl, rfl, ?_, rfl⟩
  intro k
  by_cases hk : k = Key.data (hash v1.content)
  · subst hk
    simp [eraseRemote, habsent]
  · simp [eraseRemote, putRemote, hk]

/-- Witness for `archive_conflict_detection`: from the empty state, the
conflicted pass leaves the cache empty, records exactly the content upload
and its delete, and leaves the bucket empty at the content key. -/
theorem archive_conflict_detection_witness :
    (archiveStep (fun s => s) "T" (fun s => s) c2Env emptyArchSt "/f").db =
        [] ∧
      (archiveStep (fun s => s) "T" (fun s => s) c2Env emptyArchSt "/f").uploads =
        [⟨Key.data "a", "a", false, true⟩] ∧
      (archiveStep (fun s => s) "T" (fun s => s) c2Env emptyArchSt "/f").remote
        (Key.data "a") = none := by
  have T := archive_conflict_detection (fun s => s) "T" (fun s => s) c2Env
    emptyArchSt "/f" ⟨1, "a"⟩ ⟨1, "a"⟩ ⟨2, "a"⟩ (by decide) rfl rfl
    (Or.inl (by decide))
  exact ⟨T.1, T.2.1, T.2.2.2.1 (Key.data "a")⟩

/-- C9: for a file pass that reaches the metadata step (cache miss, no
concurrent-modification conflict, fresh stream key), the MetadataRecord
upload at `index/<dataDigest>/<infoDigest>.json` is performed with
`replace` set exactly when the content upload of the same pass transferred
bytes, and a StreamRecord upload transfers if and only if the metadata
upload transferred. -/
theorem archive_metadata_stream_spec (hash : String → String) (now : String)
    (rp : String → String) (env : String → PathKind) (st : ArchSt)
    (relfile : String) (v0 v1 v2 : FileView)
    (henv : env (rp relfile) = .file v0 v1 v2)
    (hmiss : lookupDb st.db (rp relfile) v0.mtime v0.content.length = none)
    (hnc : v0.mtime = v2.mtime ∧ v0.content.length = v2.content.length)
    (hstream : st.remote
      (Key.stream now (infoDigest hash (rp relfile) v1)) = none) :
    (∃ u ∈ newUploads st (archiveStep hash now rp env st relfile),
        u.key = Key.index (dataDigest hash v1)
          (infoDigest hash (rp relfile) v1) ∧
          u.replace = (st.remote (Key.data (dataDigest hash v1))).isNone) ∧
      ((∃ u ∈ newUploads st (archiveStep hash now rp env st relfile),
          u.key = Key.stream now (infoDigest hash (rp relfile) v1) ∧
            u.transferred = true) ↔
        (∃ u ∈ newUploads st (archiveStep hash now rp env st relfile),
          u.key = Key.index (dataDigest hash v1)
            (infoDigest hash (rp relfile) v1) ∧ u.transferred = true)) := by
  simp only [dataDigest, infoDigest, metaInfo] at hstream ⊢
  rw [hnc.1, hnc.2] at hmiss
  cases hds : st.remote (Key.data (hash v1.content)) with
  | none =>
    simp [newUploads, archiveStep, henv, hmiss, upload_file, upload_string,
      uploadKey, putRemote, hds, hstream, hnc.1, hnc.2, List.drop_left]
  | some x =>
    cases hidx : st.remote (Key.index (hash v1.content)
        (hash (get_file_info (rp relfile) v1.content.length v1.mtime
          (hash v1.content)))) with
    | none =>
      simp [newUploads, archiveStep, henv, hmiss, upload_file, upload_string,
        uploadKey, putRemote, hds, hidx, hstream, hnc.1, hnc.2,
        List.drop_left]
    | some y =>
      simp [newUploads, archiveStep, henv, hmiss, upload_file, upload_string,
        uploadKey, putRemote, hds, hidx, hstream, hnc.1, hnc.2,
        List.drop_left]

/-- Witness for `archive_metadata_stream_spec` on a fresh file from the
empty state. -/
theorem archive_metadata_stream_spec_witness :
    (∃ u ∈ newUploads emptyArchSt
        (archiveStep (fun s => s) "T" (fun s => s) c9Env emptyArchSt "/f"),
        u.key = Key.index (dataDigest (fun s => s) ⟨1, "a"⟩)
          (infoDigest (fun s => s) "/f" ⟨1, "a"⟩) ∧
          u.replace = (emptyArchSt.remote
            (Key.data (dataDigest (fun s => s) ⟨1, "a"⟩))).isNone) ∧
      ((∃ u ∈ newUploads emptyArchSt
          (archiveStep (fun s => s) "T" (fun s => s) c9Env emptyArchSt "/f"),
          u.key = Key.stream "T" (infoDigest (fun s => s) "/f" ⟨1, "a"⟩) ∧
            u.transferred = true) ↔
        (∃ u ∈ newUploads emptyArchSt
          (archiveStep (fun s => s) "T" (fun s => s) c9Env emptyArchSt "/f"),
          u.key = Key.index (dataDigest (fun s => s) ⟨1, "a"⟩)
            (infoDigest (fun s => s) "/f" ⟨1, "a"⟩) ∧
            u.transferred = true)) :=
  archive_metadata_stream_spec (fun s => s) "T" (fun s => s) c9Env
    emptyArchSt "/f" ⟨1, "a"⟩ ⟨1, "a"⟩ ⟨1, "a"⟩ (by decide) rfl ⟨rfl, rfl⟩ rfl

theorem uploadKey_db (st : ArchSt) (k : Key) (b : String) (r : Bool) :
    ((uploadKey st k b r).1).db = st.db := by
  rw [uploadKey]; split <;> rfl

theorem uploadKey_remote_isSome {st : ArchSt} {k : Key}
    (hsome : (st.remote k).isSome = true) (k' : Key) (b : String) (r : Bool) :
    (((uploadKey st k' b r).1).remote k).isSome = true := by
  rw [uploadKey]; split
  · exact hsome
  · show ((putRemote st.remote k' b) k).isSome = true
    rw [putRemote]
    by_cases hkk : k = k' <;> simp [hkk, hsome]

theorem uploadKey_self_isSome (st : ArchSt) (k : Key) (b : String) (r : Bool) :
    (((uploadKey st k b r).1).remote k).isSome = true := by
  rw [uploadKey]; split
  · rename_i hcond; exact hcond.2
  · show ((putRemote st.remote k b) k).isSome = true
    simp [putRemote]

theorem archiveStep_db_shape (hash : String → String) (now : String)
    (rp : String → String) (env : String → PathKind) (st : ArchSt)
    (p : String) :
    (archiveStep hash now rp env st p).db = st.db ∨
      ∃ r, (archiveStep hash now rp env st p).db = st.db ++ [r] := by
  cases henv : env (rp p) with
  | directory => rw [archiveStep_dir henv]; exact Or.inl rfl
  | missing => rw [archiveStep_missing henv]; exact Or.inl rfl
  | file v0 v1 v2 =>
    cases hl : lookupDb st.db (rp p) v0.mtime v0.content.length with
    | some fr => rw [archiveStep_known henv hl]; exact Or.inl rfl
    | none =>
      simp only [archiveStep, henv, hl, upload_file, upload_string]
      split
      · exact Or.inl (by simp [uploadKey_db])
      · refine Or.inr ⟨⟨rp p, v0.mtime, v0.content.length,
          hash (get_file_info (rp p) v1.content.length v1.mtime
            (hash v1.content)), hash v1.content⟩, ?_⟩
        simp [apply_ite ArchSt.db, uploadKey_db]

theorem archiveStep_db_mono (hash : String → String) (now : String)
    (rp : String → String) (env : String → PathKind) (st : ArchSt)
    (p : String) {fr : DbRec} (hfr : fr ∈ st.db) :
    fr ∈ (archiveStep hash now rp env st p).db := by
  rcases archiveStep_db_shape hash now rp env st p with h | ⟨r, h⟩
  · rw [h]; exact hfr
  · rw [h]; exact List.mem_append_left _ hfr

theorem isSome_ite_remote {c : Prop} [Decidable c] {A B : ArchSt} {k : Key}
    (hA : ((A.remote) k).isSome = true) (hB : ((B.remote) k).isSome = true) :
    (((if c then A else B).remote) k).isSome = true := by
  split
  · exact hA
  · exact hB

theorem archiveStep_remote_nondata (hash : String → String) (now : String)
    (rp : String → String) (env : String → PathKind) (st : ArchSt)
    (p : String) {k : Key} (hk : ∀ s, k ≠ Key.data s)
    (hsome : (st.remote k).isSome = true) :
    (((archiveStep hash now rp env st p).remote) k).isSome = true := by
  cases henv : env (rp p) with
  | directory => rw [archiveStep_dir henv]; exact hsome
  | missing => rw [archiveStep_missing henv]; exact hsome
  | file v0 v1 v2 =>
    cases hl : lookupDb st.db (rp p) v0.mtime v0.content.length with
    | some fr => rw [archiveStep_known henv hl]; exact hsome
    | none =>
      simp only [archiveStep, henv, hl, upload_file, upload_string]
      split
      · show ((eraseRemote ((uploadKey st _ _ _).1).remote
            (Key.data (hash v1.content))) k).isSome = true
        rw [eraseRemote, if_neg (hk (hash v1.content))]
        exact uploadKey_remote_isSome hsome _ _ _
      · refine isSome_ite_remote ?_ ?_
        · apply uploadKey_remote_isSome
          apply uploadKey_remote_isSome
          apply uploadKey_remote_isSome
          exact hsome
        · apply uploadKey_remote_isSome
          apply uploadKey_remote_isSome
          exact hsome

theorem lookupDb_none_iff {db : List DbRec} {a : String} {m : Int} {s : Nat} :
    lookupDb db a m s = none ↔ ¬ dbCovers db a m s := by
  rw [lookupDb, List.find?_eq_none, dbCovers]
  constructor
  · rintro h ⟨fr, hmem, ha, hm, hs⟩
    exact h fr hmem (by simp [ha, hm, hs])
  · intro h fr hmem hpred
    simp only [Bool.and_eq_true, beq_iff_eq] at hpred
    exact h ⟨fr, hmem, hpred.1.1, hpred.1.2, hpred.2⟩

/-- After processing a stable file (no conflict), its triple is in the
cache: either it was already there (skip-known) or the pass inserted it. -/
theorem archiveStep_file_triple (hash : String → String) (now : String)
    (rp : String → String) (env : String → PathKind) (st : ArchSt)
    (p : String) {v0 v1 v2 : FileView}
    (henv : env (rp p) = .file v0 v1 v2)
    (hnc : v0.mtime = v2.mtime ∧ v0.content.length = v2.content.length) :
    dbCovers (archiveStep hash now rp env st p).db (rp p) v0.mtime
      v0.content.length := by
  cases hl : lookupDb st.db (rp p) v0.mtime v0.content.length with
  | some fr =>
    rw [archiveStep_known henv hl]
    have hmem := List.mem_of_find?_eq_some hl
    have hpred := List.find?_some hl
    simp only [Bool.and_eq_true, beq_iff_eq] at hpred
    exact ⟨fr, hmem, hpred.1.1, hpred.1.2, hpred.2⟩
  | none =>
    simp only [archiveStep, henv, hl, upload_file, upload_string]
    rw [if_neg (fun hc => by
      rcases hc.2 with h | h
      · exact h hnc.1
      · exact h hnc.2)]
    refine ⟨⟨rp p, v0.mtime, v0.content.length,
      hash (get_file_info (rp p) v1.content.length v1.mtime
        (hash v1.content)), hash v1.content⟩,
      ?_, rfl, rfl, rfl⟩
    exact List.mem_append_right _ (List.mem_singleton_self _)

/-- A file already covered by the cache is skipped: the step only logs. -/
theorem archiveStep_skip_covered (hash : String → String) (now : String)
    (rp : String → String) (env : String → PathKind) (st : ArchSt)
    (p : String) {v0 v1 v2 : FileView}
    (henv : env (rp p) = .file v0 v1 v2)
    (hcov : dbCovers st.db (rp p) v0.mtime v0.content.length) :
    archiveStep hash now rp env st p =
      { st with log := st.log ++ [.skipKnown (rp p)] } := by
  cases hl : lookupDb st.db (rp p) v0.mtime v0.content.length with
  | some fr => exact archiveStep_known henv hl
  | none => exact absurd hcov (lookupDb_none_iff.mp hl)

/-- A state predicate preserved by each fold step is preserved by the
fold. -/
theorem foldl_invariant {α σ : Type _} (f : σ → α → σ) (P : σ → Prop)
    (h : ∀ s a, P s → P (f s a)) :
    ∀ (l : List α) (s : σ), P s → P (l.foldl f s) := by
  intro l
  induction l with
  | nil => intro s hs; exact hs
  | cons a rest ih => intro s hs; exact ih (f s a) (h s a hs)

/-- After a fold over stable inputs, every file input's triple is in the
cache. -/
theorem archive_fold_covers (hash : String → String) (now : String)
    (rp : String → String) (env : String → PathKind) :
    ∀ (inputs : List String) (st : ArchSt),
    (∀ p ∈ inputs, stablePath rp env p) →
    ∀ p ∈ inputs, ∀ v0 v1 v2 : FileView, env (rp p) = .file v0 v1 v2 →
      dbCovers (inputs.foldl (archiveStep hash now rp env) st).db (rp p)
        v0.mtime v0.content.length := by
  intro inputs
  induction inputs with
  | nil => intro st _ p hp; exact absurd hp (List.not_mem_nil p)
  | cons q rest ih =>
    intro st hstable p hp v0 v1 v2 henv
    rcases List.mem_cons.mp hp with hpq | hprest
    · subst hpq
      have hnc := hstable p (List.mem_cons_self p rest) v0 v1 v2 henv
      have hbase := archiveStep_file_triple hash now rp env st p henv hnc
      obtain ⟨fr, hmem, ha, hm, hs⟩ := hbase
      have hfinal : fr ∈ (rest.foldl (archiveStep hash now rp env)
          (archiveStep hash now rp env st p)).db := by
        refine foldl_invariant (archiveStep hash now rp env)
          (fun s => fr ∈ s.db) ?_ rest _ hmem
        intro s a hfr
        exact archiveStep_db_mono hash now rp env s a hfr
      exact ⟨fr, hfinal, ha, hm, hs⟩
    · exact ih (archiveStep hash now rp env st q)
        (fun r hr => hstable r (List.mem_cons_of_mem q hr)) p hprest
        v0 v1 v2 henv

/-- A fold over inputs that are all directories, missing, or cache-covered
files makes no upload call and leaves every field but the log unchanged. -/
theorem archive_fold_skips (hash : String → String) (now : String)
    (rp : String → String) (env : String → PathKind) :
    ∀ (inputs : List String) (st : ArchSt),
    (∀ p ∈ inputs, env (rp p) = .directory ∨ env (rp p) = .missing ∨
      ∃ v0 v1 v2 : FileView, env (rp p) = .file v0 v1 v2 ∧
        dbCovers st.db (rp p) v0.mtime v0.content.length) →
    (inputs.foldl (archiveStep hash now rp env) st).uploads = st.uploads ∧
      (inputs.foldl (archiveStep hash now rp env) st).db = st.db := by
  intro inputs
  induction inputs with
  | nil => intro st _; exact ⟨rfl, rfl⟩
  | cons q rest ih =>
    intro st hcond
    have hq := hcond q (List.mem_cons_self q rest)
    have hstep : ∃ l : List AEvent,
        archiveStep hash now rp env st q = { st with log := st.log ++ l } := by
      rcases hq with h | h | ⟨v0, v1, v2, henv, hcov⟩
      · exact ⟨_, archiveStep_dir h⟩
      · exact ⟨_, archiveStep_missing h⟩
      · exact ⟨_, archiveStep_skip_covered hash now rp env st q henv hcov⟩
    obtain ⟨l, hl⟩ := hstep
    rw [List.foldl_cons, hl]
    have := ih { st with log := st.log ++ l } (fun p hp => by
      rcases hcond p (List.mem_cons_of_mem q hp) with h | h | ⟨w0, w1, w2, henv, hcov⟩
      · exact Or.inl h
      · exact Or.inr (Or.inl h)
      · exact Or.inr (Or.inr ⟨w0, w1, w2, henv, hcov⟩))
    exact this

/-- C3 (amended): re-running `archive` on an unchanged file set performs
zero additional per-file remote writes; the only write of the second run is
the per-invocation maintenance overwrite of `LAST_UPDATE.txt` (the README
for the current version already exists and is not re-transferred). -/
theorem archive_second_run_writes (hash : String → String)
    (now1 now2 selfC ver : String) (rp : String → String)
    (env : String → PathKind) (inputs : List String) (st0 : ArchSt)
    (hstable : ∀ p ∈ inputs, stablePath rp env p) :
    ((do_archive hash now2 selfC ver rp env inputs
        (do_archive hash now1 selfC ver rp env inputs st0)).uploads.drop
      (do_archive hash now1 selfC ver rp env inputs
        st0).uploads.length).filter (fun u => u.transferred) =
      [⟨Key.lastUpdate, now2, true, true⟩] := by
  have hreadme : ((do_archive hash now1 selfC ver rp env inputs
      st0).remote (Key.readme ver)).isSome = true := by
    simp only [do_archive, upload_file, upload_string]
    refine foldl_invariant (archiveStep hash now1 rp env)
      (fun s => (s.remote (Key.readme ver)).isSome = true) ?_ inputs _ ?_
    · intro s a hs
      exact archiveStep_remote_nondata hash now1 rp env s a
        (fun s' => by simp) hs
    · exact uploadKey_remote_isSome
        (uploadKey_self_isSome st0 (Key.readme ver) selfC false) _ _ _
  have hcov : ∀ p ∈ inputs, ∀ v0 v1 v2 : FileView,
      env (rp p) = .file v0 v1 v2 →
      dbCovers (do_archive hash now1 selfC ver rp env inputs st0).db
        (rp p) v0.mtime v0.content.length := by
    intro p hp v0 v1 v2 henv
    exact archive_fold_covers hash now1 rp env inputs
      ((upload_string ((upload_file st0 (Key.readme ver) selfC false).1)
        Key.lastUpdate now1 true).1) hstable p hp v0 v1 v2 henv
  have hm1 : upload_file (do_archive hash now1 selfC ver rp env inputs st0)
      (Key.readme ver) selfC false =
      ({ do_archive hash now1 selfC ver rp env inputs st0 with
          uploads := (do_archive hash now1 selfC ver rp env inputs
            st0).uploads ++ [⟨Key.readme ver, selfC, false, false⟩] },
        false) := by
    rw [upload_file]
    exact uploadKey_skip hreadme
  conv_lhs =>
    rw [show do_archive hash now2 selfC ver rp env inputs
        (do_archive hash now1 selfC ver rp env inputs st0) =
      inputs.foldl (archiveStep hash now2 rp env)
        ((upload_string ((upload_file
          (do_archive hash now1 selfC ver rp env inputs st0)
          (Key.readme ver) selfC false).1)
          Key.lastUpdate now2 true).1) from rfl]
    rw [hm1]
  rw [show (upload_string
      ({ do_archive hash now1 selfC ver rp env inputs st0 with
          uploads := (do_archive hash now1 selfC ver rp env inputs
            st0).uploads ++ [⟨Key.readme ver, selfC, false, false⟩] },
        false).1 Key.lastUpdate now2 true).1 =
      { do_archive hash now1 selfC ver rp env inputs st0 with
        remote := putRemote (do_archive hash now1 selfC ver rp env inputs
          st0).remote Key.lastUpdate now2,
        uploads := ((do_archive hash now1 selfC ver rp env inputs
          st0).uploads ++ [⟨Key.readme ver, selfC, false, false⟩]) ++
          [⟨Key.lastUpdate, now2, true, true⟩] } from by
    rw [upload_string, uploadKey_replace]]
  have hskips := archive_fold_skips hash now2 rp env inputs
    { do_archive hash now1 selfC ver rp env inputs st0 with
      remote := putRemote (do_archive hash now1 selfC ver rp env inputs
        st0).remote Key.lastUpdate now2,
      uploads := ((do_archive hash now1 selfC ver rp env inputs
        st0).uploads ++ [⟨Key.readme ver, selfC, false, false⟩]) ++
        [⟨Key.lastUpdate, now2, true, true⟩] }
    (by
      intro p hp
      cases henv : env (rp p) with
      | directory => exact Or.inl rfl
      | missing => exact Or.inr (Or.inl rfl)
      | file v0 v1 v2 =>
        exact Or.inr (Or.inr ⟨v0, v1, v2, rfl,
          hcov p hp v0 v1 v2 henv⟩))
  rw [hskips.1]
  simp only [List.append_assoc, List.drop_left]
  simp [List.filter]

/-- C3 counterexample: on an unchanged single-file set, the second archive
run still performs a remote write (the forced `LAST_UPDATE.txt` overwrite),
so it does not perform zero additional remote writes. -/
theorem archive_second_run_not_zero_writes :
    ((do_archive (fun s => s) "T2" "SRC" "0.4.0" (fun s => s) c3Env ["/a"]
        (do_archive (fun s => s) "T1" "SRC" "0.4.0" (fun s => s) c3Env
          ["/a"] emptyArchSt)).uploads.drop
      (do_archive (fun s => s) "T1" "SRC" "0.4.0" (fun s => s) c3Env ["/a"]
        emptyArchSt).uploads.length).filter (fun u => u.transferred) ≠
      [] := by
  decide

/-- Witness for `archive_second_run_writes` on that scenario: the second
run's only transferred write is the LAST_UPDATE overwrite. -/
theorem archive_second_run_writes_witness :
    ((do_archive (fun s => s) "T2" "SRC" "0.4.0" (fun s => s) c3Env ["/a"]
        (do_archive (fun s => s) "T1" "SRC" "0.4.0" (fun s => s) c3Env
          ["/a"] emptyArchSt)).uploads.drop
      (do_archive (fun s => s) "T1" "SRC" "0.4.0" (fun s => s) c3Env ["/a"]
        emptyArchSt).uploads.length).filter (fun u => u.transferred) =
      [⟨Key.lastUpdate, "T2", true, true⟩] :=
  archive_second_run_writes (fun s => s) "T1" "T2" "SRC" "0.4.0"
    (fun s => s) c3Env ["/a"] emptyArchSt (by
      intro p hp
      have hp' : p = "/a" := by simpa using hp
      subst hp'
      intro v0 v1 v2 henv
      have h : PathKind.file ⟨5, "x"⟩ ⟨5, "x"⟩ ⟨5, "x"⟩ =
          PathKind.file v0 v1 v2 := henv
      cases h
      exact ⟨rfl, rfl⟩)

end Minus80
